import Mathlib

/-!
# A shallow embedding of the CSP solver in `assignment5.py`

The source program is a Python class `CSP` holding
  * `variables`  : a list of variable names,
  * `domains`    : a dict mapping each variable to its list of legal values,
  * `constraints`: a dict of dicts; `constraints[i][j]` is the list of legal
    value pairs for the ordered variable pair `(i, j)`,
together with the solver functions `backtracking_search`, `backtrack`,
`select_unassigned_variable`, `inference` (AC-3) and `revise`.

Python dicts are modelled as association lists whose lookup and update act on
the first matching key.  Python exceptions (`KeyError` on a missing dict key,
`UnboundLocalError` on `revise`'s result variable when its loop never runs,
`IndexError`) and fuel exhaustion are collapsed into the `none` result of an
`Option`; the Python sentinel `False` returned by `backtrack` is `some none`,
and a returned assignment dict is `some (some a)`.  `copy.deepcopy` is the
identity on these pure values.  The unbounded Python recursion of `backtrack`
and the AC-3 work-list loop are driven by an explicit fuel parameter; running
out of fuel yields `none`, so every theorem about a `some` result speaks about
runs the Python program actually performs.

`revise`'s loop is modelled exactly as CPython executes it: the list iterator
keeps an integer index into the live (mutated) list, and `list.remove` deletes
the first occurrence of the value, so removing the current element makes the
iterator skip its successor.
-/

abbrev Var := String
abbrev Val := Nat
abbrev Domain := List Val
abbrev Assign := List (Var × Domain)
abbrev PairList := List (Val × Val)
abbrev CMap := List (Var × List (Var × PairList))

/-- Lookup in an association list (Python dict read `d[k]`): first matching
key wins; `none` models a `KeyError`. -/
def alLookup {α : Type} : List (Var × α) → Var → Option α
  | [], _ => none
  | (k, v) :: rest, x => if k = x then some v else alLookup rest x

/-- Update in an association list (Python dict write `d[k] = v`): replaces the
first binding of the key, or appends a new binding. -/
def alSet {α : Type} : List (Var × α) → Var → α → List (Var × α)
  | [], k, v => [(k, v)]
  | (k0, v0) :: rest, k, v =>
    if k0 = k then (k, v) :: rest else (k0, v0) :: alSet rest k v

/-- The `CSP` object's data fields. -/
structure CSP where
  vars : List Var        -- `self.variables` (that name is reserved in Lean 4)
  domains : Assign
  constraints : CMap
deriving DecidableEq, Repr

/-- `CSP.__init__`. -/
def emptyCSP : CSP := ⟨[], [], []⟩

/-- `CSP.add_variable(name, domain)`. -/
def add_variable (csp : CSP) (name : Var) (domain : Domain) : CSP :=
  { vars := csp.vars ++ [name]
    domains := alSet csp.domains name domain
    constraints := alSet csp.constraints name [] }

/-- `CSP.get_all_possible_pairs(a, b)`: `itertools.product(a, b)` in row-major
order. -/
def get_all_possible_pairs {α β : Type} (a : List α) (b : List β) : List (α × β) :=
  a.flatMap (fun x => b.map (fun y => (x, y)))

/-- Reading `self.constraints[i][j]`; `none` models a `KeyError` on either
level. -/
def clookup (csp : CSP) (i j : Var) : Option PairList :=
  match alLookup csp.constraints i with
  | none => none
  | some m => alLookup m j

/-- `CSP.get_all_arcs()`: `[(i, j) for i in constraints for j in constraints[i]]`. -/
def get_all_arcs (csp : CSP) : List (Var × Var) :=
  csp.constraints.flatMap (fun p => p.2.map (fun q => (p.1, q.1)))

/-- `CSP.get_all_neighboring_arcs(var)`: `[(i, var) for i in constraints[var]]`.
`none` models the `KeyError` when `var` is not a key of `constraints`. -/
def get_all_neighboring_arcs (csp : CSP) (var : Var) : Option (List (Var × Var)) :=
  (alLookup csp.constraints var).map (fun m => m.map (fun q => (q.1, var)))

/-- `CSP.add_constraint_one_way(i, j, filter_function)`: if `j` is not yet a
key of `constraints[i]`, seed the pair list with the full cross product of the
two domains; then filter it through the predicate. -/
def add_constraint_one_way (csp : CSP) (i j : Var) (f : Val → Val → Bool) :
    Option CSP :=
  match alLookup csp.constraints i with
  | none => none
  | some m =>
    match (match alLookup m j with
           | some cur => some cur
           | none =>
             match alLookup csp.domains i, alLookup csp.domains j with
             | some di, some dj => some (get_all_possible_pairs di dj)
             | _, _ => none) with
    | none => none
    | some base =>
      some { csp with
             constraints :=
               alSet csp.constraints i
                 (alSet m j (base.filter (fun p => f p.1 p.2))) }

/-- The loop of `CSP.add_all_different_constraint` over an explicit pair
list: for each ordered pair `(i, j)` with `i ≠ j` add the inequality
constraint one way. -/
def foldPairs (csp : CSP) (L : List (Var × Var)) : Option CSP :=
  L.foldlM
    (fun c p =>
      if p.1 = p.2 then some c
      else add_constraint_one_way c p.1 p.2 (fun x y => decide (x ≠ y)))
    csp

/-- `CSP.add_all_different_constraint(variables)`. -/
def add_all_different_constraint (csp : CSP) (vs : List Var) : Option CSP :=
  foldPairs csp (get_all_possible_pairs vs vs)

/-- The inner loop of `CSP.revise`: `legal_i` has support iff some `legal_j`
in `j`'s current domain makes the pair a member of `constraints[i][j]`. -/
def suppB (Cij : PairList) (dj : Domain) (x : Val) : Bool :=
  dj.any (fun w => decide ((x, w) ∈ Cij))

/-- The outer loop of `CSP.revise`, exactly as CPython runs it: `n` is the
list iterator's index into the live list `lst`; an unsupported value is
removed in place (`list.remove`, first occurrence), so the iterator then skips
the element that slides into the removed position.  `fl` is the current value
of the local variable `revised` (`none` while still unassigned).  The fuel is
one step per index increment; callers pass `lst.length`, which is exact. -/
def reviseLoop (Cij : PairList) (dj : Domain) :
    Nat → Domain → Nat → Option Bool → Domain × Option Bool
  | 0, lst, _, fl => (lst, fl)
  | fuel + 1, lst, n, fl =>
    if h : n < lst.length then
      let x := lst[n]
      if suppB Cij dj x then reviseLoop Cij dj fuel lst (n + 1) (some false)
      else reviseLoop Cij dj fuel (lst.erase x) (n + 1) (some true)
    else (lst, fl)

/-- `CSP.revise(assignment, i, j)`.  Faithful error behaviour: an unbound `i`
or (when the outer loop runs) unbound `j` raises `KeyError`;
`constraints[i][j]` is only read inside the inner loop, so a missing
constraint raises only when `j`'s domain is nonempty; an empty domain for `i`
leaves the local `revised` unassigned and `return revised` raises
`UnboundLocalError`.  All raises are `none`.

`constraintFor` is the value the inner loop reads for `constraints[i][j]`:
when `j`'s current domain is empty the inner loop never runs, so the lookup
never happens and no pair is ever found (modelled as the empty pair list);
otherwise the lookup itself can raise. -/
def constraintFor (csp : CSP) (i j : Var) (dj : Domain) : Option PairList :=
  if dj = [] then some [] else clookup csp i j

def revise (csp : CSP) (a : Assign) (i j : Var) : Option (Assign × Bool) :=
  match alLookup a i with
  | none => none
  | some di =>
    if di = [] then none
    else
      match alLookup a j with
      | none => none
      | some dj =>
        match constraintFor csp i j dj with
        | none => none
        | some Cij =>
          match reviseLoop Cij dj di.length di 0 none with
          | (di2, some r) => some (alSet a i di2, r)
          | (_, none) => none

/-- `CSP.inference(assignment, queue)`: the AC-3 work list, FIFO.  When
`revise` reports a change, an emptied domain signals failure; otherwise all
arcs `(k, i)` for `k` a key of `constraints[i]` are appended.  Fuel counts
loop iterations; exhaustion is `none`. -/
def inference (csp : CSP) : Nat → Assign → List (Var × Var) → Option (Assign × Bool)
  | 0, _, _ => none
  | fuel + 1, a, q =>
    match q with
    | [] => some (a, true)
    | (i, j) :: rest =>
      match revise csp a i j with
      | none => none
      | some (a2, r) =>
        if r then
          match alLookup a2 i with
          | none => none
          | some di =>
            if di.length = 0 then some (a2, false)
            else
              match get_all_neighboring_arcs csp i with
              | none => none
              | some nb => inference csp fuel a2 (rest ++ nb)
        else inference csp fuel a2 rest

/-- `CSP.select_unassigned_variable(assignment)`: scan `self.variables` in
declaration order and return the first whose working domain has more than one
value; `some none` is Python's `None` (all scanned domains have length ≤ 1);
`none` is a `KeyError` on a variable missing from the assignment. -/
def select_unassigned_variable : List Var → Assign → Option (Option Var)
  | [], _ => some none
  | x :: rest, a =>
    match alLookup a x with
    | none => none
    | some d => if 1 < d.length then some (some x) else select_unassigned_variable rest a

/-- Combining the outcome of one branch of `backtrack`'s value loop with the
outcome so far: a branch is only explored while the running outcome is still
the Python `False` sentinel (`some none`); a found solution (`some (some s)`)
or a raised exception (`none`) short-circuits. -/
def seqTry (x y : Option (Option Assign)) : Option (Option Assign) :=
  match x with
  | some none => y
  | r => r

/-- `CSP.backtrack(assignment)`.  `some (some a)` is a returned assignment,
`some none` is the Python `False` failure sentinel, `none` is a raised
exception or fuel exhaustion.  Each loop iteration works on
`alSet a Xi [v]`, the deep copy of the parent assignment with the chosen
variable collapsed to the single value, exactly as lines 128-144 of the
source do. -/
def backtrack (csp : CSP) : Nat → Assign → Option (Option Assign)
  | 0, _ => none
  | fuel + 1, a =>
    match select_unassigned_variable csp.vars a with
    | none => none
    | some none => some (some a)
    | some (some Xi) =>
      match alLookup a Xi with
      | none => none
      | some vals =>
        vals.foldl
          (fun acc v =>
            seqTry acc
              (match get_all_neighboring_arcs csp Xi with
               | none => none
               | some arcs =>
                 match inference csp fuel (alSet a Xi [v]) arcs with
                 | none => none
                 | some (a2, ok) =>
                   if ok then backtrack csp fuel a2 else some none))
          (some none)

/-- The body of one iteration of `backtrack`'s value loop, as a named
function: clone the parent `a`, collapse `Xi` to `v`, run `inference` on the
arcs neighbouring `Xi`, and recurse on success. -/
def branchOutcome (csp : CSP) (fuel : Nat) (a : Assign) (Xi : Var) (v : Val) :
    Option (Option Assign) :=
  match get_all_neighboring_arcs csp Xi with
  | none => none
  | some arcs =>
    match inference csp fuel (alSet a Xi [v]) arcs with
    | none => none
    | some (a2, ok) =>
      if ok then backtrack csp fuel a2 else some none

/-- `backtrack`'s value loop over a list of candidate values, starting from a
running outcome `acc`.  Every branch is computed from the same parent
assignment `a`. -/
def tvLoop (csp : CSP) (fuel : Nat) (a : Assign) (Xi : Var)
    (acc : Option (Option Assign)) (vs : List Val) : Option (Option Assign) :=
  vs.foldl (fun acc v => seqTry acc (branchOutcome csp fuel a Xi v)) acc

/-- `CSP.backtracking_search()`: deep copy the domains, run AC-3 over all
arcs (its Boolean result is discarded by the source, line 87), then call
`backtrack` on the pruned assignment. -/
def backtracking_search (csp : CSP) (fuel : Nat) : Option (Option Assign) :=
  match inference csp fuel csp.domains (get_all_arcs csp) with
  | none => none
  | some (a1, _) => backtrack csp fuel a1

/-- `backtrack` at positive fuel is exactly the value loop `tvLoop` run on the
domain of the selected variable from the `False` sentinel. -/
theorem backtrack_succ (csp : CSP) (fuel : Nat) (a : Assign) :
    backtrack csp (fuel + 1) a =
      match select_unassigned_variable csp.vars a with
      | none => none
      | some none => some (some a)
      | some (some Xi) =>
        match alLookup a Xi with
        | none => none
        | some vals => tvLoop csp fuel a Xi (some none) vals := rfl

/-! ## Association-list lemmas -/

theorem alLookup_alSet_self {α : Type} (m : List (Var × α)) (k : Var) (v : α) :
    alLookup (alSet m k v) k = some v := by
  induction m with
  | nil => simp [alSet, alLookup]
  | cons p rest ih =>
    obtain ⟨k0, v0⟩ := p
    by_cases h : k0 = k <;> simp [alSet, alLookup, h, ih]

theorem alLookup_alSet_ne {α : Type} (m : List (Var × α)) (k k2 : Var) (v : α)
    (h : k2 ≠ k) : alLookup (alSet m k v) k2 = alLookup m k2 := by
  have hk : k ≠ k2 := Ne.symm h
  induction m with
  | nil => simp [alSet, alLookup, hk]
  | cons p rest ih =>
    obtain ⟨k0, v0⟩ := p
    by_cases h0 : k0 = k
    · subst h0
      simp [alSet, alLookup, hk]
    · simp [alSet, alLookup, h0, ih]

theorem alSet_self {α : Type} (m : List (Var × α)) (k : Var) (v : α)
    (h : alLookup m k = some v) : alSet m k v = m := by
  induction m with
  | nil => simp [alLookup] at h
  | cons p rest ih =>
    obtain ⟨k0, v0⟩ := p
    by_cases h0 : k0 = k
    · subst h0
      simp [alLookup] at h
      simp [alSet, h]
    · simp [alLookup, h0] at h
      simp [alSet, h0, ih h]

theorem alLookup_mem {α : Type} {m : List (Var × α)} {k : Var} {v : α}
    (h : alLookup m k = some v) : (k, v) ∈ m := by
  induction m with
  | nil => simp [alLookup] at h
  | cons p rest ih =>
    obtain ⟨k0, v0⟩ := p
    by_cases h0 : k0 = k
    · subst h0
      simp [alLookup] at h
      simp [h]
    · simp [alLookup, h0] at h
      simp [ih h]

/-! ## Lemmas about the `revise` loop -/

theorem suppB_true_iff (Cij : PairList) (dj : Domain) (x : Val) :
    suppB Cij dj x = true ↔ ∃ w ∈ dj, (x, w) ∈ Cij := by
  simp [suppB, List.any_eq_true]

/-- Once the iterator index has reached the end of the live list, the loop
stops and returns the current `revised` value. -/
theorem reviseLoop_done (Cij : PairList) (dj : Domain) (fuel : Nat) (lst : Domain)
    (n : Nat) (fl : Option Bool) (h : lst.length ≤ n) :
    reviseLoop Cij dj fuel lst n fl = (lst, fl) := by
  cases fuel with
  | zero => rfl
  | succ f => simp [reviseLoop, Nat.not_lt.mpr h]

/-- The loop only removes elements: the final list is a sublist of the
starting one. -/
theorem reviseLoop_sublist (Cij : PairList) (dj : Domain) :
    ∀ (fuel : Nat) (lst : Domain) (n : Nat) (fl : Option Bool),
      List.Sublist (reviseLoop Cij dj fuel lst n fl).1 lst := by
  intro fuel
  induction fuel with
  | zero => intro lst n fl; exact List.Sublist.refl lst
  | succ f ih =>
    intro lst n fl
    by_cases h : n < lst.length
    · simp only [reviseLoop, dif_pos h]
      by_cases hs : suppB Cij dj (lst[n]) = true
      · simpa [hs] using ih lst (n + 1) (some false)
      · simp only [hs, if_false]
        exact (ih (lst.erase (lst[n])) (n + 1) (some true)).trans
          (List.erase_sublist _ _)
    · rw [reviseLoop_done Cij dj _ _ _ _ (Nat.not_lt.mp h)]

/-- With enough fuel, the final `revised` value can only be unassigned if the
loop never ran. -/
theorem reviseLoop_flag_none (Cij : PairList) (dj : Domain) :
    ∀ (fuel : Nat) (lst : Domain) (n : Nat) (fl : Option Bool),
      lst.length ≤ n + fuel → (reviseLoop Cij dj fuel lst n fl).2 = none →
      fl = none ∧ lst.length ≤ n := by
  intro fuel
  induction fuel with
  | zero => intro lst n fl hf h; simp only [reviseLoop] at h; exact ⟨h, by omega⟩
  | succ f ih =>
    intro lst n fl hf h
    by_cases hn : n < lst.length
    · simp only [reviseLoop, dif_pos hn] at h
      by_cases hs : suppB Cij dj (lst[n]) = true
      · rw [if_pos hs] at h
        exact absurd (ih lst (n + 1) (some false) (by omega) h).1 (by simp)
      · rw [if_neg hs] at h
        have hlen : (lst.erase (lst[n])).length ≤ n + 1 + f := by
          have := List.length_erase_of_mem (List.getElem_mem hn)
          omega
        exact absurd (ih _ (n + 1) (some true) hlen h).1 (by simp)
    · rw [reviseLoop_done Cij dj _ _ _ _ (Nat.not_lt.mp hn)] at h
      exact ⟨h, Nat.not_lt.mp hn⟩

/-- If the loop ends with `revised = False` then either it never ran past `n`
(so the list is unchanged and the flag was already `False`), or the last
examined element sits at the end of the final list, whose length is then at
least `n + 1`. -/
theorem reviseLoop_false_len (Cij : PairList) (dj : Domain) :
    ∀ (fuel : Nat) (lst : Domain) (n : Nat) (fl : Option Bool) (lst2 : Domain),
      lst.length ≤ n + fuel →
      reviseLoop Cij dj fuel lst n fl = (lst2, some false) →
      (lst2 = lst ∧ fl = some false ∧ lst.length ≤ n) ∨ n + 1 ≤ lst2.length := by
  intro fuel
  induction fuel with
  | zero =>
    intro lst n fl lst2 hf h
    simp only [reviseLoop, Prod.mk.injEq] at h
    exact Or.inl ⟨h.1.symm, h.2, by omega⟩
  | succ f ih =>
    intro lst n fl lst2 hf h
    by_cases hn : n < lst.length
    · simp only [reviseLoop, dif_pos hn] at h
      by_cases hs : suppB Cij dj (lst[n]) = true
      · rw [if_pos hs] at h
        rcases ih lst (n + 1) (some false) lst2 (by omega) h with ⟨rfl, _, _⟩ | h1
        · exact Or.inr (by omega)
        · exact Or.inr (by omega)
      · rw [if_neg hs] at h
        have hlen : (lst.erase (lst[n])).length ≤ n + 1 + f := by
          have := List.length_erase_of_mem (List.getElem_mem hn)
          omega
        rcases ih _ (n + 1) (some true) lst2 hlen h with h1 | h1
        · exact absurd h1.2.1 (by simp)
        · exact Or.inr (by omega)
    · rw [reviseLoop_done Cij dj _ _ _ _ (Nat.not_lt.mp hn)] at h
      injection h with h1 h2
      exact Or.inl ⟨h1.symm, h2, Nat.not_lt.mp hn⟩

/-- A run that ends with `revised = False` either removed nothing, or left at
least two elements: after any in-place removal the iterator skips one
surviving element, and `False` means the last examined element also
survived. -/
theorem reviseLoop_false_cases (Cij : PairList) (dj : Domain) :
    ∀ (fuel : Nat) (lst : Domain) (n : Nat) (fl : Option Bool) (lst2 : Domain),
      lst.length ≤ n + fuel →
      reviseLoop Cij dj fuel lst n fl = (lst2, some false) →
      lst2 = lst ∨ n + 2 ≤ lst2.length := by
  intro fuel
  induction fuel with
  | zero =>
    intro lst n fl lst2 hf h
    simp only [reviseLoop, Prod.mk.injEq] at h
    exact Or.inl h.1.symm
  | succ f ih =>
    intro lst n fl lst2 hf h
    by_cases hn : n < lst.length
    · simp only [reviseLoop, dif_pos hn] at h
      by_cases hs : suppB Cij dj (lst[n]) = true
      · rw [if_pos hs] at h
        rcases ih lst (n + 1) (some false) lst2 (by omega) h with h1 | h1
        · exact Or.inl h1
        · exact Or.inr (by omega)
      · rw [if_neg hs] at h
        have hlen : (lst.erase (lst[n])).length ≤ n + 1 + f := by
          have := List.length_erase_of_mem (List.getElem_mem hn)
          omega
        rcases reviseLoop_false_len Cij dj f _ (n + 1) (some true) lst2 hlen h with
          h1 | h1
        · exact absurd h1.2.1 (by simp)
        · exact Or.inr (by omega)
    · rw [reviseLoop_done Cij dj _ _ _ _ (Nat.not_lt.mp hn)] at h
      injection h with h1 _
      exact Or.inl h1.symm

/-- On a list all of whose values have support, the loop removes nothing and
ends with `revised = False` (provided it runs at least once). -/
theorem reviseLoop_all_supported (Cij : PairList) (dj : Domain) :
    ∀ (fuel : Nat) (lst : Domain) (n : Nat) (fl : Option Bool),
      (∀ x ∈ lst, suppB Cij dj x = true) →
      lst.length ≤ n + fuel → n < lst.length →
      reviseLoop Cij dj fuel lst n fl = (lst, some false) := by
  intro fuel
  induction fuel with
  | zero => intro lst n fl _ hf hn; omega
  | succ f ih =>
    intro lst n fl hall hf hn
    have hs : suppB Cij dj (lst[n]) = true :=
      hall _ (List.getElem_mem hn)
    simp only [reviseLoop, dif_pos hn, if_pos hs]
    by_cases hn2 : n + 1 < lst.length
    · exact ih lst (n + 1) (some false) hall (by omega) hn2
    · exact reviseLoop_done Cij dj f lst (n + 1) (some false) (by omega)

/-- Evaluation of the loop on a singleton list. -/
theorem reviseLoop_singleton (Cij : PairList) (dj : Domain) (v : Val) :
    reviseLoop Cij dj 1 [v] 0 none =
      (if suppB Cij dj v then ([v], some false) else ([], some true)) := by
  by_cases hs : suppB Cij dj v = true <;> simp [reviseLoop, hs]

/-! ## Dissection of a successful `revise` call -/

theorem revise_spec {csp : CSP} {a : Assign} {i j : Var} {a2 : Assign} {r : Bool}
    (h : revise csp a i j = some (a2, r)) :
    ∃ di dj Cu di2, alLookup a i = some di ∧ di ≠ [] ∧ alLookup a j = some dj ∧
      reviseLoop Cu dj di.length di 0 none = (di2, some r) ∧ a2 = alSet a i di2 ∧
      ((dj = [] ∧ Cu = []) ∨ (dj ≠ [] ∧ clookup csp i j = some Cu)) := by
  unfold revise at h
  cases hdi : alLookup a i with
  | none => simp [hdi] at h
  | some di =>
    simp only [hdi] at h
    by_cases hde : di = []
    · simp [hde] at h
    · rw [if_neg hde] at h
      cases hdj : alLookup a j with
      | none => simp [hdj] at h
      | some dj =>
        simp only [hdj] at h
        cases hc : constraintFor csp i j dj with
        | none => simp [hc] at h
        | some Cu =>
          simp only [hc] at h
          cases hrl : reviseLoop Cu dj di.length di 0 none with
          | mk di2 fl =>
            simp only [hrl] at h
            cases fl with
            | none => simp at h
            | some r0 =>
              simp only [Option.some.injEq, Prod.mk.injEq] at h
              refine ⟨di, dj, Cu, di2, rfl, hde, rfl, ?_, h.1.symm, ?_⟩
              · rw [hrl, h.2]
              · unfold constraintFor at hc
                by_cases hje : dj = []
                · rw [if_pos hje] at hc
                  exact Or.inl ⟨hje, by injection hc with hh; exact hh.symm⟩
                · rw [if_neg hje] at hc
                  exact Or.inr ⟨hje, hc⟩

/-! ## Consequences of a successful `revise` call -/

/-- `revise` mutates only `i`'s working domain. -/
theorem revise_frame {csp : CSP} {a : Assign} {i j : Var} {a2 : Assign} {r : Bool}
    (h : revise csp a i j = some (a2, r)) :
    ∀ x, x ≠ i → alLookup a2 x = alLookup a x := by
  obtain ⟨di, dj, Cu, di2, _, _, _, _, ha2, _⟩ := revise_spec h
  intro x hx
  rw [ha2, alLookup_alSet_ne _ _ _ _ hx]

/-- `revise` shrinks `i`'s working domain (as a sublist), and that domain was
nonempty on entry. -/
theorem revise_at_i {csp : CSP} {a : Assign} {i j : Var} {a2 : Assign} {r : Bool}
    (h : revise csp a i j = some (a2, r)) :
    ∃ di di2, alLookup a i = some di ∧ di ≠ [] ∧ alLookup a2 i = some di2 ∧
      List.Sublist di2 di := by
  obtain ⟨di, dj, Cu, di2, hdi, hde, _, hrl, ha2, _⟩ := revise_spec h
  refine ⟨di, di2, hdi, hde, ?_, ?_⟩
  · rw [ha2, alLookup_alSet_self]
  · have := reviseLoop_sublist Cu dj di.length di 0 none
    rw [hrl] at this
    exact this

/-- A `revise` call that returns `False` either changed nothing, or left at
least two values in `i`'s domain (the in-place removal skipped a survivor and
the last examined value was kept). -/
theorem revise_false_cases {csp : CSP} {a : Assign} {i j : Var} {a2 : Assign}
    (h : revise csp a i j = some (a2, false)) :
    a2 = a ∨ ∃ di2, alLookup a2 i = some di2 ∧ 2 ≤ di2.length := by
  obtain ⟨di, dj, Cu, di2, hdi, hde, _, hrl, ha2, _⟩ := revise_spec h
  rcases reviseLoop_false_cases Cu dj di.length di 0 none di2 (by omega) hrl with
    heq | hlen
  · subst heq
    exact Or.inl (by rw [ha2, alSet_self _ _ _ hdi])
  · exact Or.inr ⟨di2, by rw [ha2, alLookup_alSet_self], by omega⟩

/-- A `revise` call that returns `False` on a singleton domain `[v]` changes
nothing, and `v` has a supporting value in `j`'s current domain under the
stored `i → j` constraint. -/
theorem revise_false_singleton {csp : CSP} {a : Assign} {i j : Var} {a2 : Assign}
    {v : Val} (h : revise csp a i j = some (a2, false))
    (hv : alLookup a i = some [v]) :
    a2 = a ∧ ∃ Cu dj w, clookup csp i j = some Cu ∧ alLookup a j = some dj ∧
      w ∈ dj ∧ (v, w) ∈ Cu := by
  obtain ⟨di, dj, Cu, di2, hdi, hde, hdj, hrl, ha2, hcu⟩ := revise_spec h
  rw [hv] at hdi
  injection hdi with hdi
  subst hdi
  rw [List.length_singleton] at hrl
  rw [reviseLoop_singleton] at hrl
  by_cases hs : suppB Cu dj v = true
  · rw [if_pos hs] at hrl
    injection hrl with h1 _
    obtain ⟨w, hw, hmem⟩ := (suppB_true_iff Cu dj v).mp hs
    have hjne : dj ≠ [] := List.ne_nil_of_mem hw
    rcases hcu with ⟨hj0, _⟩ | ⟨_, hcl⟩
    · exact absurd hj0 hjne
    · subst h1
      exact ⟨by rw [ha2, alSet_self _ _ _ hv], Cu, dj, w, hcl, hdj, hw, hmem⟩
  · rw [if_neg hs] at hrl
    injection hrl with _ h2
    simp at h2

/-! ## Domains only shrink -/

/-- `shrinkA a b`: every working domain bound in `a` is still bound in `b`,
to a sublist of its old value. -/
def shrinkA (a b : Assign) : Prop :=
  ∀ x d, alLookup a x = some d → ∃ d2, alLookup b x = some d2 ∧ List.Sublist d2 d

theorem shrinkA_refl (a : Assign) : shrinkA a a :=
  fun _ d h => ⟨d, h, List.Sublist.refl d⟩

theorem shrinkA_trans {a b c : Assign} (h1 : shrinkA a b) (h2 : shrinkA b c) :
    shrinkA a c := by
  intro x d hd
  obtain ⟨d2, hd2, hs2⟩ := h1 x d hd
  obtain ⟨d3, hd3, hs3⟩ := h2 x d2 hd2
  exact ⟨d3, hd3, hs3.trans hs2⟩

theorem revise_shrink {csp : CSP} {a : Assign} {i j : Var} {a2 : Assign} {r : Bool}
    (h : revise csp a i j = some (a2, r)) : shrinkA a a2 := by
  intro x d hd
  by_cases hx : x = i
  · subst hx
    obtain ⟨di, di2, hdi, _, hdi2, hsub⟩ := revise_at_i h
    rw [hd] at hdi
    injection hdi with hdi
    subst hdi
    exact ⟨di2, hdi2, hsub⟩
  · exact ⟨d, by rw [revise_frame h x hx, hd], List.Sublist.refl d⟩

theorem inference_shrink {csp : CSP} :
    ∀ {fuel : Nat} {a : Assign} {q : List (Var × Var)} {a2 : Assign} {r : Bool},
      inference csp fuel a q = some (a2, r) → shrinkA a a2 := by
  intro fuel
  induction fuel with
  | zero => intro a q a2 r h; simp [inference] at h
  | succ f ih =>
    intro a q a2 r h
    match q with
    | [] =>
      simp only [inference, Option.some.injEq, Prod.mk.injEq] at h
      rw [h.1]
      exact shrinkA_refl a2
    | (i, j) :: rest =>
      simp only [inference] at h
      cases hr : revise csp a i j with
      | none => rw [hr] at h; simp at h
      | some p =>
        obtain ⟨a1, rr⟩ := p
        rw [hr] at h
        simp only at h
        by_cases hrr : rr = true
        · rw [if_pos hrr] at h
          cases hdi : alLookup a1 i with
          | none => rw [hdi] at h; simp at h
          | some di =>
            rw [hdi] at h
            simp only at h
            by_cases hl : di.length = 0
            · rw [if_pos hl] at h
              injection h with h1
              injection h1 with h1 _
              subst h1
              exact revise_shrink hr
            · rw [if_neg hl] at h
              cases hnb : get_all_neighboring_arcs csp i with
              | none => rw [hnb] at h; simp at h
              | some nb =>
                rw [hnb] at h
                simp only at h
                exact shrinkA_trans (revise_shrink hr) (ih h)
        · rw [if_neg hrr] at h
          exact shrinkA_trans (revise_shrink hr) (ih h)

/-- When `inference` signals failure, the domain it just emptied is empty in
the state it returns. -/
theorem inference_false_empty {csp : CSP} :
    ∀ {fuel : Nat} {a : Assign} {q : List (Var × Var)} {a2 : Assign},
      inference csp fuel a q = some (a2, false) → ∃ x, alLookup a2 x = some [] := by
  intro fuel
  induction fuel with
  | zero => intro a q a2 h; simp [inference] at h
  | succ f ih =>
    intro a q a2 h
    match q with
    | [] => simp only [inference, Option.some.injEq, Prod.mk.injEq] at h; simp at h
    | (i, j) :: rest =>
      simp only [inference] at h
      cases hr : revise csp a i j with
      | none => rw [hr] at h; simp at h
      | some p =>
        obtain ⟨a1, rr⟩ := p
        rw [hr] at h
        simp only at h
        by_cases hrr : rr = true
        · rw [if_pos hrr] at h
          cases hdi : alLookup a1 i with
          | none => rw [hdi] at h; simp at h
          | some di =>
            rw [hdi] at h
            simp only at h
            by_cases hl : di.length = 0
            · rw [if_pos hl] at h
              injection h with h1
              injection h1 with h1 _
              subst h1
              exact ⟨i, by rw [hdi, List.length_eq_zero.mp hl]⟩
            · rw [if_neg hl] at h
              cases hnb : get_all_neighboring_arcs csp i with
              | none => rw [hnb] at h; simp at h
              | some nb => rw [hnb] at h; simp only at h; exact ih h
        · rw [if_neg hrr] at h
          exact ih h

/-! ## Arc enumeration lemmas -/

theorem get_all_arcs_mem {csp : CSP} {i j : Var} {Cij : PairList}
    (h : clookup csp i j = some Cij) : (i, j) ∈ get_all_arcs csp := by
  unfold clookup at h
  cases hm : alLookup csp.constraints i with
  | none => rw [hm] at h; simp at h
  | some m =>
    rw [hm] at h
    simp only at h
    unfold get_all_arcs
    refine List.mem_flatMap.mpr ⟨(i, m), alLookup_mem hm, ?_⟩
    exact List.mem_map.mpr ⟨(j, Cij), alLookup_mem h, rfl⟩

/-- If an outgoing constraint `i → y` is stored, the neighbouring-arc list of
`i` is defined and contains the arc `(y, i)`. -/
theorem nbrs_of_out {csp : CSP} {i y : Var} {C0 : PairList}
    (h : clookup csp i y = some C0) :
    ∃ nb, get_all_neighboring_arcs csp i = some nb ∧ (y, i) ∈ nb := by
  unfold clookup at h
  cases hm : alLookup csp.constraints i with
  | none => rw [hm] at h; simp at h
  | some m =>
    rw [hm] at h
    simp only at h
    refine ⟨m.map (fun q => (q.1, i)), ?_, ?_⟩
    · unfold get_all_neighboring_arcs
      rw [hm]
      rfl
    · exact List.mem_map.mpr ⟨(y, C0), alLookup_mem h, rfl⟩

/-! ## The two-way constraint discipline -/

/-- The symmetry discipline the source documents for `add_constraint_one_way`
("all constraints are supposed to be two-way connections"): an `i → j`
constraint is stored exactly when the `j → i` one is, and a pair is permitted
one way exactly when its mirror is permitted the other way. -/
def SymC (csp : CSP) : Prop :=
  ∀ i j : Var,
    ((clookup csp i j).isSome ↔ (clookup csp j i).isSome) ∧
    ∀ a b : Val,
      ((a, b) ∈ (clookup csp i j).getD [] ↔ (b, a) ∈ (clookup csp j i).getD [])

/-- Executable check of the two-way discipline over the finite constraint
table. -/
def symCheck (csp : CSP) : Bool :=
  csp.constraints.all (fun pi =>
    pi.2.all (fun pj =>
      match clookup csp pi.1 pj.1, clookup csp pj.1 pi.1 with
      | some l, some l2 => l.all (fun p => decide ((p.2, p.1) ∈ l2))
      | _, _ => false))

theorem symCheck_entry {csp : CSP} (h : symCheck csp = true) {i j : Var}
    {l : PairList} (hij : clookup csp i j = some l) :
    ∃ l2, clookup csp j i = some l2 ∧ ∀ p ∈ l, (p.2, p.1) ∈ l2 := by
  have hm : ∃ m, alLookup csp.constraints i = some m ∧ alLookup m j = some l := by
    unfold clookup at hij
    cases hm0 : alLookup csp.constraints i with
    | none => rw [hm0] at hij; simp at hij
    | some m => rw [hm0] at hij; exact ⟨m, rfl, hij⟩
  obtain ⟨m, hm1, hm2⟩ := hm
  have h1 := (List.all_eq_true.mp h) (i, m) (alLookup_mem hm1)
  have h2 := (List.all_eq_true.mp h1) (j, l) (alLookup_mem hm2)
  simp only at h2
  cases hij2 : clookup csp i j with
  | none => rw [hij2] at hij; simp at hij
  | some l0 =>
    rw [hij] at hij2
    injection hij2 with hij2
    subst hij2
    rw [hij] at h2
    cases hji : clookup csp j i with
    | none => rw [hji] at h2; simp at h2
    | some l2 =>
      rw [hji] at h2
      simp only at h2
      refine ⟨l2, rfl, ?_⟩
      intro p hp
      have := (List.all_eq_true.mp h2) p hp
      exact of_decide_eq_true this

/-- Soundness of the executable check. -/
theorem symCheck_sound {csp : CSP} (h : symCheck csp = true) : SymC csp := by
  intro i j
  constructor
  · constructor
    · intro hs
      obtain ⟨l, hl⟩ := Option.isSome_iff_exists.mp hs
      obtain ⟨l2, hl2, _⟩ := symCheck_entry h hl
      exact Option.isSome_iff_exists.mpr ⟨l2, hl2⟩
    · intro hs
      obtain ⟨l, hl⟩ := Option.isSome_iff_exists.mp hs
      obtain ⟨l2, hl2, _⟩ := symCheck_entry h hl
      exact Option.isSome_iff_exists.mpr ⟨l2, hl2⟩
  · intro a b
    constructor
    · intro hmem
      cases hij : clookup csp i j with
      | none => rw [hij] at hmem; simp at hmem
      | some l =>
        rw [hij] at hmem
        obtain ⟨l2, hl2, hall⟩ := symCheck_entry h hij
        rw [hl2]
        exact hall (a, b) hmem
    · intro hmem
      cases hji : clookup csp j i with
      | none => rw [hji] at hmem; simp at hmem
      | some l2 =>
        rw [hji] at hmem
        obtain ⟨l3, hl3, hall⟩ := symCheck_entry h hji
        rw [hl3]
        exact hall (b, a) hmem

/-- Under the two-way discipline, a stored incoming constraint `x → i` puts
the arc `(x, i)` on `i`'s neighbouring-arc list. -/
theorem nbrs_of_in {csp : CSP} (hsym : SymC csp) {x i : Var} {C0 : PairList}
    (h : clookup csp x i = some C0) :
    ∃ nb, get_all_neighboring_arcs csp i = some nb ∧ (x, i) ∈ nb := by
  have hs : (clookup csp i x).isSome :=
    ((hsym i x).1).mpr (by rw [h]; rfl)
  obtain ⟨C1, hC1⟩ := Option.isSome_iff_exists.mp hs
  exact nbrs_of_out hC1

/-! ## The arc-consistency invariant carried through the search -/

/-- `Qinv csp a q`: for every stored arc whose two endpoints are currently
decided (singleton working domains), either the chosen pair is permitted, or
the arc (in one of its two orientations) is still waiting in the work
queue `q`. -/
def Qinv (csp : CSP) (a : Assign) (q : List (Var × Var)) : Prop :=
  ∀ i j Cij v w, clookup csp i j = some Cij →
    alLookup a i = some [v] → alLookup a j = some [w] →
    ((v, w) ∈ Cij ∨ (i, j) ∈ q ∨ (j, i) ∈ q)

theorem Qinv_mono {csp : CSP} {a : Assign} {q q2 : List (Var × Var)}
    (hsub : ∀ p ∈ q, p ∈ q2) (h : Qinv csp a q) : Qinv csp a q2 := by
  intro i j Cij v w hC hi hj
  rcases h i j Cij v w hC hi hj with h1 | h1 | h1
  · exact Or.inl h1
  · exact Or.inr (Or.inl (hsub _ h1))
  · exact Or.inr (Or.inr (hsub _ h1))

/-- Every stored arc is in `get_all_arcs`, so the invariant holds at the start
of the global pre-pass for any assignment. -/
theorem Qinv_init (csp : CSP) (a : Assign) : Qinv csp a (get_all_arcs csp) := by
  intro i j Cij v w hC _ _
  exact Or.inr (Or.inl (get_all_arcs_mem hC))

/-- Processing an arc whose `revise` reported a change preserves the
invariant: every stored arc touching the rewritten variable `i0` is put back
on the queue (in the orientation that checks the other endpoint against
`i0`), and all other arcs are untouched. -/
theorem Qinv_step_true {csp : CSP} (hsym : SymC csp) {a : Assign} {i0 j0 : Var}
    {a2 : Assign} {rest nb : List (Var × Var)}
    (hq : Qinv csp a ((i0, j0) :: rest))
    (hr : revise csp a i0 j0 = some (a2, true))
    (hnb : get_all_neighboring_arcs csp i0 = some nb) :
    Qinv csp a2 (rest ++ nb) := by
  intro x y Cxy v w hC hx hy
  by_cases hxi : x = i0
  · subst hxi
    obtain ⟨nb2, hnb2, hmem⟩ := nbrs_of_out hC
    rw [hnb] at hnb2
    injection hnb2 with hnb2
    subst hnb2
    exact Or.inr (Or.inr (List.mem_append.mpr (Or.inr hmem)))
  · by_cases hyi : y = i0
    · subst hyi
      obtain ⟨nb2, hnb2, hmem⟩ := nbrs_of_in hsym hC
      rw [hnb] at hnb2
      injection hnb2 with hnb2
      subst hnb2
      exact Or.inr (Or.inl (List.mem_append.mpr (Or.inr hmem)))
    · rw [revise_frame hr x hxi] at hx
      rw [revise_frame hr y hyi] at hy
      rcases hq x y Cxy v w hC hx hy with h1 | h1 | h1
      · exact Or.inl h1
      · rcases List.mem_cons.mp h1 with h2 | h2
        · exact absurd (congrArg Prod.fst h2) hxi
        · exact Or.inr (Or.inl (List.mem_append.mpr (Or.inl h2)))
      · rcases List.mem_cons.mp h1 with h2 | h2
        · exact absurd (congrArg Prod.fst h2) hyi
        · exact Or.inr (Or.inr (List.mem_append.mpr (Or.inl h2)))

/-- Processing an arc whose `revise` reported no change preserves the
invariant without re-queueing: if the popped arc's endpoints are both decided,
`revise` has just verified the chosen pair (directly, or through the mirror
constraint via the two-way discipline); changed-but-`False` calls leave the
rewritten domain with at least two values, so no decided pair mentions it. -/
theorem Qinv_step_false {csp : CSP} (hsym : SymC csp) {a : Assign} {i0 j0 : Var}
    {a2 : Assign} {rest : List (Var × Var)}
    (hq : Qinv csp a ((i0, j0) :: rest))
    (hr : revise csp a i0 j0 = some (a2, false)) :
    Qinv csp a2 rest := by
  intro x y Cxy v w hC hx hy
  rcases revise_false_cases hr with heq | ⟨di2, hdi2, hlen⟩
  · subst heq
    rcases hq x y Cxy v w hC hx hy with h1 | h1 | h1
    · exact Or.inl h1
    · rcases List.mem_cons.mp h1 with h2 | h2
      · -- the popped arc itself: x = i0, y = j0; its source domain is [v]
        have hx0 : x = i0 := congrArg Prod.fst h2
        have hy0 : y = j0 := congrArg Prod.snd h2
        subst hx0; subst hy0
        obtain ⟨_, Cu, dj, w2, hcl, hdj, hw2, hmem⟩ := revise_false_singleton hr hx
        rw [hC] at hcl
        injection hcl with hcl
        subst hcl
        rw [hy] at hdj
        injection hdj with hdj
        subst hdj
        rcases List.mem_singleton.mp hw2 with rfl
        exact Or.inl hmem
      · exact Or.inr (Or.inl h2)
    · rcases List.mem_cons.mp h1 with h2 | h2
      · -- the mirror of the popped arc: y = i0, x = j0; verify via symmetry
        have hy0 : y = i0 := congrArg Prod.fst h2
        have hx0 : x = j0 := congrArg Prod.snd h2
        subst hy0; subst hx0
        obtain ⟨_, Cu, dj, w2, hcl, hdj, hw2, hmem⟩ := revise_false_singleton hr hy
        rw [hx] at hdj
        injection hdj with hdj
        subst hdj
        have hv2 : w2 = v := List.mem_singleton.mp hw2
        rw [hv2] at hmem
        have hmir := ((hsym y x).2 w v).mp
        rw [hcl, hC] at hmir
        simp only [Option.getD_some] at hmir
        exact Or.inl (hmir hmem)
      · exact Or.inr (Or.inr h2)
  · -- the rewritten domain kept at least two values: no decided pair uses it
    by_cases hxi : x = i0
    · subst hxi
      rw [hx] at hdi2
      injection hdi2 with hdi2
      rw [← hdi2] at hlen
      simp at hlen
    · by_cases hyi : y = i0
      · subst hyi
        rw [hy] at hdi2
        injection hdi2 with hdi2
        rw [← hdi2] at hlen
        simp at hlen
      · rw [revise_frame hr x hxi] at hx
        rw [revise_frame hr y hyi] at hy
        rcases hq x y Cxy v w hC hx hy with h1 | h1 | h1
        · exact Or.inl h1
        · rcases List.mem_cons.mp h1 with h2 | h2
          · exact absurd (congrArg Prod.fst h2) hxi
          · exact Or.inr (Or.inl h2)
        · rcases List.mem_cons.mp h1 with h2 | h2
          · exact absurd (congrArg Prod.fst h2) hyi
          · exact Or.inr (Or.inr h2)

/-- A successful `inference` run drains its queue while preserving the
invariant, so at the end every decided stored arc carries a permitted pair. -/
theorem inference_Q {csp : CSP} (hsym : SymC csp) :
    ∀ {fuel : Nat} {a : Assign} {q : List (Var × Var)} {a2 : Assign},
      Qinv csp a q → inference csp fuel a q = some (a2, true) →
      Qinv csp a2 [] := by
  intro fuel
  induction fuel with
  | zero => intro a q a2 _ h; simp [inference] at h
  | succ f ih =>
    intro a q a2 hq h
    match q with
    | [] =>
      simp only [inference, Option.some.injEq, Prod.mk.injEq] at h
      rw [← h.1]
      intro x y Cxy v w hC hx hy
      rcases hq x y Cxy v w hC hx hy with h1 | h1 | h1
      · exact Or.inl h1
      · simp at h1
      · simp at h1
    | (i, j) :: rest =>
      simp only [inference] at h
      cases hr : revise csp a i j with
      | none => rw [hr] at h; simp at h
      | some p =>
        obtain ⟨a1, rr⟩ := p
        rw [hr] at h
        simp only at h
        by_cases hrr : rr = true
        · subst hrr
          rw [if_pos rfl] at h
          cases hdi : alLookup a1 i with
          | none => rw [hdi] at h; simp at h
          | some di =>
            rw [hdi] at h
            simp only at h
            by_cases hl : di.length = 0
            · rw [if_pos hl] at h
              injection h with h1
              injection h1 with _ h2
              simp at h2
            · rw [if_neg hl] at h
              cases hnb : get_all_neighboring_arcs csp i with
              | none => rw [hnb] at h; simp at h
              | some nb =>
                rw [hnb] at h
                simp only at h
                exact ih (Qinv_step_true hsym hq hr hnb) h
        · rw [if_neg hrr] at h
          have hrr2 : rr = false := by
            cases rr
            · rfl
            · exact absurd rfl hrr
          subst hrr2
          exact ih (Qinv_step_false hsym hq hr) h

/-- Collapsing a chosen variable to a single value re-establishes the
invariant with respect to the neighbouring arcs that `backtrack` then feeds
to `inference`: every stored arc touching the decided variable is on that
queue (in one orientation), all others were already verified. -/
theorem Qinv_decision {csp : CSP} (hsym : SymC csp) {a : Assign} {Xi : Var}
    {v : Val} {nb : List (Var × Var)} (hq : Qinv csp a [])
    (hnb : get_all_neighboring_arcs csp Xi = some nb) :
    Qinv csp (alSet a Xi [v]) nb := by
  intro x y Cxy v2 w hC hx hy
  by_cases hxi : x = Xi
  · subst hxi
    obtain ⟨nb2, hnb2, hmem⟩ := nbrs_of_out hC
    rw [hnb] at hnb2
    injection hnb2 with hnb2
    subst hnb2
    exact Or.inr (Or.inr hmem)
  · by_cases hyi : y = Xi
    · subst hyi
      obtain ⟨nb2, hnb2, hmem⟩ := nbrs_of_in hsym hC
      rw [hnb] at hnb2
      injection hnb2 with hnb2
      subst hnb2
      exact Or.inr (Or.inl hmem)
    · rw [alLookup_alSet_ne _ _ _ _ hxi] at hx
      rw [alLookup_alSet_ne _ _ _ _ hyi] at hy
      rcases hq x y Cxy v2 w hC hx hy with h1 | h1 | h1
      · exact Or.inl h1
      · simp at h1
      · simp at h1

/-! ## The value loop of `backtrack` -/

theorem seqTry_none (y : Option (Option Assign)) : seqTry none y = none := rfl

theorem seqTry_fail (y : Option (Option Assign)) : seqTry (some none) y = y := rfl

theorem seqTry_found (s : Assign) (y : Option (Option Assign)) :
    seqTry (some (some s)) y = some (some s) := rfl

theorem tvLoop_nil (csp : CSP) (fuel : Nat) (a : Assign) (Xi : Var)
    (acc : Option (Option Assign)) : tvLoop csp fuel a Xi acc [] = acc := rfl

theorem tvLoop_cons (csp : CSP) (fuel : Nat) (a : Assign) (Xi : Var)
    (acc : Option (Option Assign)) (v : Val) (vs : List Val) :
    tvLoop csp fuel a Xi acc (v :: vs) =
      tvLoop csp fuel a Xi (seqTry acc (branchOutcome csp fuel a Xi v)) vs := rfl

/-- A solution produced by the value loop comes from the running outcome or
from the branch of one of the listed values — each branch being computed from
the same parent assignment `a`. -/
theorem tvLoop_sol {csp : CSP} {fuel : Nat} {a : Assign} {Xi : Var} :
    ∀ (vs : List Val) (acc : Option (Option Assign)) (sol : Assign),
      tvLoop csp fuel a Xi acc vs = some (some sol) →
      acc = some (some sol) ∨
        ∃ v ∈ vs, branchOutcome csp fuel a Xi v = some (some sol) := by
  intro vs
  induction vs with
  | nil => intro acc sol h; exact Or.inl h
  | cons v vs ih =>
    intro acc sol h
    rw [tvLoop_cons] at h
    rcases ih _ sol h with h1 | ⟨v2, hv2, h1⟩
    · match acc with
      | none => rw [seqTry_none] at h1; exact absurd h1 (by simp)
      | some none =>
        rw [seqTry_fail] at h1
        exact Or.inr ⟨v, List.mem_cons_self v vs, h1⟩
      | some (some s) =>
        rw [seqTry_found] at h1
        exact Or.inl h1
    · exact Or.inr ⟨v2, List.mem_cons_of_mem v hv2, h1⟩

/-- Dissection of a branch that produced a solution. -/
theorem branchOutcome_sol {csp : CSP} {fuel : Nat} {a : Assign} {Xi : Var}
    {v : Val} {sol : Assign}
    (h : branchOutcome csp fuel a Xi v = some (some sol)) :
    ∃ nb a2, get_all_neighboring_arcs csp Xi = some nb ∧
      inference csp fuel (alSet a Xi [v]) nb = some (a2, true) ∧
      backtrack csp fuel a2 = some (some sol) := by
  unfold branchOutcome at h
  cases hnb : get_all_neighboring_arcs csp Xi with
  | none => rw [hnb] at h; simp at h
  | some nb =>
    rw [hnb] at h
    simp only at h
    cases hinf : inference csp fuel (alSet a Xi [v]) nb with
    | none => rw [hinf] at h; simp at h
    | some p =>
      obtain ⟨a2, ok⟩ := p
      rw [hinf] at h
      simp only at h
      by_cases hok : ok = true
      · subst hok
        rw [if_pos rfl] at h
        exact ⟨nb, a2, rfl, hinf, h⟩
      · rw [if_neg hok] at h
        simp at h

/-- Dissection of a `backtrack` call that returned a solution: it is a leaf
(no variable has more than one value) or it decided some variable, ran
`inference` successfully on a clone, and got the solution from the recursive
call on that clone. -/
theorem backtrack_sol_cases {csp : CSP} {fuel : Nat} {a : Assign} {sol : Assign}
    (h : backtrack csp fuel a = some (some sol)) :
    ∃ f, fuel = f + 1 ∧
      ((select_unassigned_variable csp.vars a = some none ∧ sol = a) ∨
       (∃ Xi vals v nb a2,
          select_unassigned_variable csp.vars a = some (some Xi) ∧
          alLookup a Xi = some vals ∧ v ∈ vals ∧
          get_all_neighboring_arcs csp Xi = some nb ∧
          inference csp f (alSet a Xi [v]) nb = some (a2, true) ∧
          backtrack csp f a2 = some (some sol))) := by
  match fuel with
  | 0 => simp [backtrack] at h
  | f + 1 =>
    refine ⟨f, rfl, ?_⟩
    rw [backtrack_succ] at h
    cases hsel : select_unassigned_variable csp.vars a with
    | none => rw [hsel] at h; simp at h
    | some o =>
      cases o with
      | none =>
        rw [hsel] at h
        simp only [Option.some.injEq] at h
        exact Or.inl ⟨rfl, h.symm⟩
      | some Xi =>
        rw [hsel] at h
        simp only at h
        cases hvals : alLookup a Xi with
        | none => rw [hvals] at h; simp at h
        | some vals =>
          rw [hvals] at h
          simp only at h
          rcases tvLoop_sol vals (some none) sol h with h1 | ⟨v, hv, h1⟩
          · simp at h1
          · obtain ⟨nb, a2, hnb, hinf, hbk⟩ := branchOutcome_sol h1
            exact Or.inr ⟨Xi, vals, v, nb, a2, by simp [hsel], by simp [hvals],
              hv, hnb, hinf, hbk⟩

/-! ## Properties of `select_unassigned_variable` -/

/-- When the scan returns Python `None`, every variable it scanned is bound
and has at most one remaining value. -/
theorem select_none_all :
    ∀ (vars : List Var) (a : Assign),
      select_unassigned_variable vars a = some none →
      ∀ X ∈ vars, ∃ d, alLookup a X = some d ∧ d.length ≤ 1 := by
  intro vars
  induction vars with
  | nil => intro a _ X hX; simp at hX
  | cons x rest ih =>
    intro a h X hX
    simp only [select_unassigned_variable] at h
    cases hd : alLookup a x with
    | none => rw [hd] at h; simp at h
    | some d =>
      rw [hd] at h
      simp only at h
      by_cases hl : 1 < d.length
      · rw [if_pos hl] at h; simp at h
      · rw [if_neg hl] at h
        rcases List.mem_cons.mp hX with rfl | hX2
        · exact ⟨d, hd, by omega⟩
        · exact ih a h X hX2

/-! ## Invariants of `backtrack` -/

/-- Deciding a variable to one of its current values only shrinks domains. -/
theorem alSet_decide_shrink {a : Assign} {Xi : Var} {vals : Domain} {v : Val}
    (hvals : alLookup a Xi = some vals) (hv : v ∈ vals) :
    shrinkA a (alSet a Xi [v]) := by
  intro x d hd
  by_cases hx : x = Xi
  · subst hx
    rw [hd] at hvals
    injection hvals with hvals
    subst hvals
    exact ⟨[v], alLookup_alSet_self _ _ _, List.singleton_sublist.mpr hv⟩
  · exact ⟨d, by rw [alLookup_alSet_ne _ _ _ _ hx, hd], List.Sublist.refl d⟩

/-- Any solution returned by `backtrack` binds every variable the input state
binds, to a sublist of its working domain there. -/
theorem backtrack_shrink {csp : CSP} :
    ∀ {fuel : Nat} {a sol : Assign},
      backtrack csp fuel a = some (some sol) → shrinkA a sol := by
  intro fuel
  induction fuel with
  | zero => intro a sol h; simp [backtrack] at h
  | succ f ih =>
    intro a sol h
    obtain ⟨f2, hf2, hcases⟩ := backtrack_sol_cases h
    injection hf2 with hf2
    subst hf2
    rcases hcases with ⟨_, rfl⟩ | ⟨Xi, vals, v, nb, a2, _, hvals, hv, _, hinf, hbk⟩
    · exact shrinkA_refl sol
    · exact shrinkA_trans (alSet_decide_shrink hvals hv)
        (shrinkA_trans (inference_shrink hinf) (ih hbk))

/-- Every solution `backtrack` returns has all declared variables bound to
domains of length at most one. -/
theorem backtrack_le1 {csp : CSP} :
    ∀ {fuel : Nat} {a sol : Assign},
      backtrack csp fuel a = some (some sol) →
      ∀ X ∈ csp.vars, ∃ d, alLookup sol X = some d ∧ d.length ≤ 1 := by
  intro fuel
  induction fuel with
  | zero => intro a sol h; simp [backtrack] at h
  | succ f ih =>
    intro a sol h
    obtain ⟨f2, hf2, hcases⟩ := backtrack_sol_cases h
    injection hf2 with hf2
    subst hf2
    rcases hcases with ⟨hsel, rfl⟩ | ⟨Xi, vals, v, nb, a2, _, hvals, hv, _, hinf, hbk⟩
    · exact select_none_all csp.vars sol hsel
    · exact ih hbk

/-- Under the two-way discipline, `backtrack` preserves the invariant from
any state whose queue has been drained: every solution it returns assigns
permitted pairs to all decided stored arcs. -/
theorem backtrack_Q {csp : CSP} (hsym : SymC csp) :
    ∀ {fuel : Nat} {a sol : Assign},
      Qinv csp a [] → backtrack csp fuel a = some (some sol) →
      Qinv csp sol [] := by
  intro fuel
  induction fuel with
  | zero => intro a sol _ h; simp [backtrack] at h
  | succ f ih =>
    intro a sol hq h
    obtain ⟨f2, hf2, hcases⟩ := backtrack_sol_cases h
    injection hf2 with hf2
    subst hf2
    rcases hcases with ⟨_, rfl⟩ | ⟨Xi, vals, v, nb, a2, _, hvals, hv, hnb, hinf, hbk⟩
    · exact hq
    · exact ih (inference_Q hsym (Qinv_decision hsym hq hnb) hinf) hbk

/-! ## Genuinely arc-consistent states -/

/-- The property checked per stored arc: both endpoints bound, the source
domain nonempty, and every source value supported. -/
def ACfact (csp : CSP) (a : Assign) (p : Var × Var) : Prop :=
  ∃ Cij di dj, clookup csp p.1 p.2 = some Cij ∧ alLookup a p.1 = some di ∧
    alLookup a p.2 = some dj ∧ di ≠ [] ∧ ∀ v ∈ di, suppB Cij dj v = true

/-- Executable arc-consistency check over all stored arcs. -/
def acCheck (csp : CSP) (a : Assign) : Bool :=
  csp.constraints.all (fun pi =>
    pi.2.all (fun pj =>
      match clookup csp pi.1 pj.1, alLookup a pi.1, alLookup a pj.1 with
      | some Cij, some di, some dj =>
        decide (di ≠ []) && di.all (fun v => suppB Cij dj v)
      | _, _, _ => false))

theorem acCheck_sound {csp : CSP} {a : Assign} (h : acCheck csp a = true) :
    ∀ p ∈ get_all_arcs csp, ACfact csp a p := by
  intro p hp
  unfold get_all_arcs at hp
  obtain ⟨⟨i, m⟩, hm, hp2⟩ := List.mem_flatMap.mp hp
  obtain ⟨⟨j, l⟩, hl, hpe⟩ := List.mem_map.mp hp2
  subst hpe
  have h1 := (List.all_eq_true.mp h) (i, m) hm
  have h2 := (List.all_eq_true.mp h1) (j, l) hl
  simp only at h2
  cases hC : clookup csp i j with
  | none => rw [hC] at h2; simp at h2
  | some Cij =>
    rw [hC] at h2
    cases hdi : alLookup a i with
    | none => rw [hdi] at h2; simp at h2
    | some di =>
      rw [hdi] at h2
      cases hdj : alLookup a j with
      | none => rw [hdj] at h2; simp at h2
      | some dj =>
        rw [hdj] at h2
        simp only [Bool.and_eq_true, decide_eq_true_eq] at h2
        refine ⟨Cij, di, dj, hC, hdi, hdj, h2.1, ?_⟩
        intro v hv
        exact (List.all_eq_true.mp h2.2) v hv

/-- On an arc whose source values are all supported, `revise` changes nothing
and returns `False`. -/
theorem revise_noop {csp : CSP} {a : Assign} {i j : Var}
    (h : ACfact csp a (i, j)) : revise csp a i j = some (a, false) := by
  obtain ⟨Cij, di, dj, hC, hdi, hdj, hne, hall⟩ := h
  simp only at hC hdi hdj
  obtain ⟨v, hv⟩ := List.exists_mem_of_ne_nil di hne
  obtain ⟨w, hw, _⟩ := (suppB_true_iff Cij dj v).mp (hall v hv)
  have hdjne : dj ≠ [] := List.ne_nil_of_mem hw
  have hcf : constraintFor csp i j dj = some Cij := by
    unfold constraintFor
    rw [if_neg hdjne]
    exact hC
  have hrl := reviseLoop_all_supported Cij dj di.length di 0 none hall (by omega)
    (List.length_pos.mpr hne)
  unfold revise
  simp [hdi, hne, hdj, hcf, hrl, alSet_self _ _ _ hdi]

/-- Running the AC-3 work list over arcs that are all already consistent
drains the queue without changing the state. -/
theorem inference_ac_noop {csp : CSP} {a : Assign} :
    ∀ (q : List (Var × Var)) (fuel : Nat),
      (∀ p ∈ q, ACfact csp a p) → q.length < fuel →
      inference csp fuel a q = some (a, true) := by
  intro q
  induction q with
  | nil =>
    intro fuel _ hf
    match fuel with
    | f + 1 => rfl
  | cons p rest ih =>
    intro fuel hall hf
    obtain ⟨i, j⟩ := p
    match fuel with
    | f + 1 =>
      simp only [inference]
      rw [revise_noop (hall (i, j) (List.mem_cons_self _ _))]
      simp only [if_neg (by simp : ¬ (false = true))]
      exact ih f (fun p hp => hall p (List.mem_cons_of_mem _ hp)) (by
        simp only [List.length_cons] at hf
        omega)

/-! ## Characterising `add_constraint_one_way` and the Alldiff fold -/

/-- The pair list an `add_constraint_one_way` call starts from for a given
ordered pair: the stored list if present, otherwise the cross product of the
two current domains. -/
def adBase (csp : CSP) (x y : Var) : Option PairList :=
  match clookup csp x y with
  | some l => some l
  | none =>
    match alLookup csp.domains x, alLookup csp.domains y with
    | some dx, some dy => some (get_all_possible_pairs dx dy)
    | _, _ => none

/-- The filter applied by the Alldiff constraint. -/
def diffFilter (l : PairList) : PairList := l.filter (fun p => decide (p.1 ≠ p.2))

theorem filter_idem (p : Val × Val → Bool) (l : PairList) :
    (l.filter p).filter p = l.filter p := by
  induction l with
  | nil => rfl
  | cons x xs ih =>
    by_cases h : p x = true <;> simp [List.filter_cons, h, ih]

theorem addCOW_char {csp csp2 : CSP} {i j : Var} {f : Val → Val → Bool}
    (h : add_constraint_one_way csp i j f = some csp2) :
    csp2.domains = csp.domains ∧ csp2.vars = csp.vars ∧
    (∀ x y, ¬(x = i ∧ y = j) → clookup csp2 x y = clookup csp x y) ∧
    ∃ base, clookup csp2 i j = some (base.filter (fun p => f p.1 p.2)) ∧
      (clookup csp i j = some base ∨
       (clookup csp i j = none ∧
        ∃ di dj, alLookup csp.domains i = some di ∧
          alLookup csp.domains j = some dj ∧
          base = get_all_possible_pairs di dj)) := by
  unfold add_constraint_one_way at h
  cases hm : alLookup csp.constraints i with
  | none => rw [hm] at h; simp at h
  | some m =>
    rw [hm] at h
    simp only at h
    have hcl : ∀ y, clookup csp i y = alLookup m y := by
      intro y
      unfold clookup
      rw [hm]
    have main : ∀ base : PairList,
        (clookup csp i j = some base ∨
         (clookup csp i j = none ∧
          ∃ di dj, alLookup csp.domains i = some di ∧
            alLookup csp.domains j = some dj ∧
            base = get_all_possible_pairs di dj)) →
        csp2 = { csp with
                 constraints :=
                   alSet csp.constraints i
                     (alSet m j (base.filter (fun p => f p.1 p.2))) } →
        csp2.domains = csp.domains ∧ csp2.vars = csp.vars ∧
        (∀ x y, ¬(x = i ∧ y = j) → clookup csp2 x y = clookup csp x y) ∧
        ∃ base2, clookup csp2 i j = some (base2.filter (fun p => f p.1 p.2)) ∧
          (clookup csp i j = some base2 ∨
           (clookup csp i j = none ∧
            ∃ di dj, alLookup csp.domains i = some di ∧
              alLookup csp.domains j = some dj ∧
              base2 = get_all_possible_pairs di dj)) := by
      intro base hbase heq
      subst heq
      refine ⟨rfl, rfl, ?_, base, ?_, hbase⟩
      · intro x y hxy
        by_cases hx : x = i
        · subst hx
          have hy : y ≠ j := fun hy => hxy ⟨rfl, hy⟩
          unfold clookup
          simp only [alLookup_alSet_self]
          rw [alLookup_alSet_ne _ _ _ _ hy, hm]
        · unfold clookup
          simp only [alLookup_alSet_ne _ _ _ _ hx]
      · unfold clookup
        simp only [alLookup_alSet_self]
    cases hmj : alLookup m j with
    | some cur =>
      rw [hmj] at h
      simp only [Option.some.injEq] at h
      exact main cur (Or.inl (by rw [hcl j, hmj])) h.symm
    | none =>
      rw [hmj] at h
      simp only at h
      cases hdi : alLookup csp.domains i with
      | none => rw [hdi] at h; simp at h
      | some di =>
        rw [hdi] at h
        cases hdj : alLookup csp.domains j with
        | none => rw [hdj] at h; simp at h
        | some dj =>
          rw [hdj] at h
          simp only [Option.some.injEq] at h
          rw [← hdi, ← hdj]
          exact main (get_all_possible_pairs di dj)
            (Or.inr ⟨by rw [hcl j, hmj], di, dj, hdi, hdj, rfl⟩) h.symm

theorem foldPairs_nil (csp : CSP) : foldPairs csp [] = some csp := rfl

theorem foldPairs_cons (csp : CSP) (p : Var × Var) (L : List (Var × Var)) :
    foldPairs csp (p :: L) =
      (if p.1 = p.2 then some csp
       else add_constraint_one_way csp p.1 p.2 (fun x y => decide (x ≠ y))).bind
        (fun c => foldPairs c L) := rfl

theorem adBase_eq {csp : CSP} {p1 p2 : Var} {base : PairList}
    (hbase : clookup csp p1 p2 = some base ∨
       (clookup csp p1 p2 = none ∧
        ∃ di dj, alLookup csp.domains p1 = some di ∧
          alLookup csp.domains p2 = some dj ∧
          base = get_all_possible_pairs di dj)) :
    adBase csp p1 p2 = some base := by
  unfold adBase
  rcases hbase with hb | ⟨hnone, di, dj, hdi, hdj, hprod⟩
  · rw [hb]
  · subst hprod
    simp [hnone, hdi, hdj]

/-- Characterisation of the Alldiff fold over an arbitrary pair list: each
ordered pair of distinct variables appearing in the list ends with its base
pair set filtered by the inequality predicate; every other entry is
untouched, and variables and domains never change. -/
theorem foldPairs_char :
    ∀ (L : List (Var × Var)) (csp csp2 : CSP), foldPairs csp L = some csp2 →
      csp2.domains = csp.domains ∧ csp2.vars = csp.vars ∧
      ∀ x y, clookup csp2 x y =
        if (x, y) ∈ L ∧ x ≠ y then (adBase csp x y).map diffFilter
        else clookup csp x y := by
  intro L
  induction L with
  | nil =>
    intro csp csp2 h
    rw [foldPairs_nil] at h
    injection h with h
    subst h
    refine ⟨rfl, rfl, ?_⟩
    intro x y
    simp
  | cons p rest ih =>
    intro csp csp2 h
    obtain ⟨p1, p2⟩ := p
    rw [foldPairs_cons] at h
    by_cases hpq : p1 = p2
    · rw [if_pos hpq] at h
      simp only [Option.some_bind] at h
      obtain ⟨hd, hv, hcl⟩ := ih csp csp2 h
      refine ⟨hd, hv, ?_⟩
      intro x y
      rw [hcl x y]
      by_cases hc1 : ((x, y) ∈ (p1, p2) :: rest ∧ x ≠ y)
      · have hc2 : (x, y) ∈ rest ∧ x ≠ y := by
          obtain ⟨hm, hne⟩ := hc1
          rcases List.mem_cons.mp hm with he | hm2
          · exfalso
            apply hne
            have h1 : x = p1 := congrArg Prod.fst he
            have h2 : y = p2 := congrArg Prod.snd he
            rw [h1, h2, hpq]
          · exact ⟨hm2, hne⟩
        rw [if_pos hc2, if_pos hc1]
      · have hc2 : ¬((x, y) ∈ rest ∧ x ≠ y) := fun hh =>
          hc1 ⟨List.mem_cons_of_mem _ hh.1, hh.2⟩
        rw [if_neg hc2, if_neg hc1]
    · rw [if_neg hpq] at h
      cases hadd : add_constraint_one_way csp p1 p2 (fun x y => decide (x ≠ y)) with
      | none => rw [hadd] at h; simp at h
      | some csp1 =>
        rw [hadd] at h
        simp only [Option.some_bind] at h
        obtain ⟨hdom1, hvars1, hframe, base, hnew, hbase⟩ := addCOW_char hadd
        have hbase2 : adBase csp p1 p2 = some base := adBase_eq hbase
        have hnew2 : clookup csp1 p1 p2 = (adBase csp p1 p2).map diffFilter := by
          rw [hbase2]
          exact hnew
        have hnew4 : clookup csp1 p1 p2 = some (diffFilter base) := by
          rw [hnew2, hbase2]
          rfl
        have hb1 : adBase csp1 p1 p2 = some (diffFilter base) := by
          unfold adBase
          simp only [hnew4]
        have hnew3 : (adBase csp1 p1 p2).map diffFilter =
            (adBase csp p1 p2).map diffFilter := by
          rw [hb1, hbase2]
          exact congrArg some (filter_idem _ base)
        obtain ⟨hd, hv, hcl⟩ := ih csp1 csp2 h
        refine ⟨hd.trans hdom1, hv.trans hvars1, ?_⟩
        intro x y
        rw [hcl x y]
        by_cases hcr : (x, y) ∈ rest ∧ x ≠ y
        · rw [if_pos hcr,
            if_pos (⟨List.mem_cons_of_mem _ hcr.1, hcr.2⟩ :
              (x, y) ∈ (p1, p2) :: rest ∧ x ≠ y)]
          by_cases hpe : x = p1 ∧ y = p2
          · obtain ⟨he1, he2⟩ := hpe
            subst he1
            subst he2
            exact hnew3
          · unfold adBase
            rw [hframe x y hpe, hdom1]
        · rw [if_neg hcr]
          by_cases hpe : x = p1 ∧ y = p2
          · obtain ⟨he1, he2⟩ := hpe
            subst he1
            subst he2
            have hcond : (x, y) ∈ (x, y) :: rest ∧ x ≠ y :=
              ⟨List.mem_cons_self _ _, hpq⟩
            rw [if_pos hcond]
            exact hnew2
          · have hcond : ¬((x, y) ∈ (p1, p2) :: rest ∧ x ≠ y) := by
              rintro ⟨hm, hne⟩
              rcases List.mem_cons.mp hm with he | hm2
              · exact hpe ⟨congrArg Prod.fst he, congrArg Prod.snd he⟩
              · exact hcr ⟨hm2, hne⟩
            rw [if_neg hcond]
            exact hframe x y hpe

theorem mem_get_all_possible_pairs {α β : Type} (a : List α) (b : List β)
    (x : α) (y : β) : (x, y) ∈ get_all_possible_pairs a b ↔ x ∈ a ∧ y ∈ b := by
  simp only [get_all_possible_pairs, List.mem_flatMap, List.mem_map,
    Prod.mk.injEq]
  constructor
  · rintro ⟨x2, hx2, y2, hy2, rfl, rfl⟩
    exact ⟨hx2, hy2⟩
  · rintro ⟨hx, hy⟩
    exact ⟨x, hx, y, hy, rfl, rfl⟩

theorem mem_diffFilter (l : PairList) (a b : Val) :
    (a, b) ∈ diffFilter l ↔ (a, b) ∈ l ∧ a ≠ b := by
  simp [diffFilter, List.mem_filter]

/-- Symmetry of the base pair set under the two-way discipline. -/
theorem adBase_sym {csp : CSP} (hsym : SymC csp) (i j : Var) :
    ((adBase csp i j).isSome ↔ (adBase csp j i).isSome) ∧
    ∀ a b : Val, ((a, b) ∈ (adBase csp i j).getD [] ↔
      (b, a) ∈ (adBase csp j i).getD []) := by
  cases hij : clookup csp i j with
  | some l =>
    have hs : (clookup csp j i).isSome := ((hsym i j).1).mp (by rw [hij]; rfl)
    obtain ⟨l2, hl2⟩ := Option.isSome_iff_exists.mp hs
    have hb1 : adBase csp i j = some l := by unfold adBase; simp only [hij]
    have hb2 : adBase csp j i = some l2 := by unfold adBase; simp only [hl2]
    rw [hb1, hb2]
    refine ⟨by simp, ?_⟩
    intro a b
    have := (hsym i j).2 a b
    rw [hij, hl2] at this
    simpa using this
  | none =>
    have hs : clookup csp j i = none := by
      cases hji : clookup csp j i with
      | none => rfl
      | some l2 =>
        have := ((hsym i j).1).mpr (by rw [hji]; rfl)
        rw [hij] at this
        simp at this
    have hb1 : adBase csp i j =
        (match alLookup csp.domains i, alLookup csp.domains j with
         | some dx, some dy => some (get_all_possible_pairs dx dy)
         | _, _ => none) := by
      unfold adBase
      simp only [hij]
    have hb2 : adBase csp j i =
        (match alLookup csp.domains j, alLookup csp.domains i with
         | some dx, some dy => some (get_all_possible_pairs dx dy)
         | _, _ => none) := by
      unfold adBase
      simp only [hs]
    rw [hb1, hb2]
    cases hdi : alLookup csp.domains i with
    | none =>
      cases hdj : alLookup csp.domains j with
      | none => simp
      | some dj => simp
    | some di =>
      cases hdj : alLookup csp.domains j with
      | none => simp
      | some dj =>
        simp only
        refine ⟨by simp, ?_⟩
        intro a b
        simp only [Option.getD_some]
        rw [mem_get_all_possible_pairs, mem_get_all_possible_pairs]
        exact ⟨fun hh => ⟨hh.2, hh.1⟩, fun hh => ⟨hh.2, hh.1⟩⟩

/-- The two-way discipline survives `add_all_different_constraint`. -/
theorem alldiff_sym {csp csp2 : CSP} {vs : List Var} (hsym : SymC csp)
    (h : add_all_different_constraint csp vs = some csp2) : SymC csp2 := by
  unfold add_all_different_constraint at h
  obtain ⟨hd, hv, hcl⟩ := foldPairs_char _ _ _ h
  intro i j
  have hcij := hcl i j
  have hcji := hcl j i
  have hmemiff : ((i, j) ∈ get_all_possible_pairs vs vs ∧ i ≠ j) ↔
      ((j, i) ∈ get_all_possible_pairs vs vs ∧ j ≠ i) := by
    rw [mem_get_all_possible_pairs, mem_get_all_possible_pairs]
    constructor
    · rintro ⟨⟨h1, h2⟩, h3⟩
      exact ⟨⟨h2, h1⟩, h3.symm⟩
    · rintro ⟨⟨h1, h2⟩, h3⟩
      exact ⟨⟨h2, h1⟩, h3.symm⟩
  by_cases hcond : (i, j) ∈ get_all_possible_pairs vs vs ∧ i ≠ j
  · rw [if_pos hcond] at hcij
    rw [if_pos (hmemiff.mp hcond)] at hcji
    obtain ⟨hiso, hmem⟩ := adBase_sym hsym i j
    constructor
    · rw [hcij, hcji]
      cases hb1 : adBase csp i j with
      | none =>
        have hb2 : adBase csp j i = none := by
          cases hb2 : adBase csp j i with
          | none => rfl
          | some l2 =>
            have := hiso.mpr (by rw [hb2]; rfl)
            rw [hb1] at this
            simp at this
        rw [hb2]
      | some l =>
        have hs2 : (adBase csp j i).isSome := hiso.mp (by rw [hb1]; rfl)
        obtain ⟨l2, hb2⟩ := Option.isSome_iff_exists.mp hs2
        rw [hb2]
        simp
    · intro a b
      rw [hcij, hcji]
      cases hb1 : adBase csp i j with
      | none =>
        have hb2 : adBase csp j i = none := by
          cases hb2 : adBase csp j i with
          | none => rfl
          | some l2 =>
            have := hiso.mpr (by rw [hb2]; rfl)
            rw [hb1] at this
            simp at this
        rw [hb2]
        simp
      | some l =>
        have hs2 : (adBase csp j i).isSome := hiso.mp (by rw [hb1]; rfl)
        obtain ⟨l2, hb2⟩ := Option.isSome_iff_exists.mp hs2
        have hmem2 := hmem a b
        rw [hb1, hb2] at hmem2
        simp only [Option.getD_some] at hmem2
        rw [hb2]
        show (a, b) ∈ diffFilter l ↔ (b, a) ∈ diffFilter l2
        rw [mem_diffFilter, mem_diffFilter]
        constructor
        · rintro ⟨h1, h2⟩
          exact ⟨hmem2.mp h1, h2.symm⟩
        · rintro ⟨h1, h2⟩
          exact ⟨hmem2.mpr h1, h2.symm⟩
  · rw [if_neg hcond] at hcij
    rw [if_neg (fun hh => hcond (hmemiff.mpr hh))] at hcji
    rw [hcij, hcji]
    exact hsym i j

/-! ## Further `select_unassigned_variable` lemmas -/

theorem select_all_le_none :
    ∀ (vars : List Var) (a : Assign),
      (∀ X ∈ vars, ∃ d, alLookup a X = some d ∧ d.length ≤ 1) →
      select_unassigned_variable vars a = some none := by
  intro vars
  induction vars with
  | nil => intro a _; rfl
  | cons x rest ih =>
    intro a hall
    obtain ⟨d, hd, hle⟩ := hall x (List.mem_cons_self x rest)
    simp only [select_unassigned_variable, hd]
    rw [if_neg (by omega)]
    exact ih a (fun X hX => hall X (List.mem_cons_of_mem _ hX))

theorem select_some_first :
    ∀ (vars : List Var) (a : Assign) (Xi : Var),
      select_unassigned_variable vars a = some (some Xi) →
      ∃ pre post d, vars = pre ++ Xi :: post ∧
        (∀ Y ∈ pre, ∃ dY, alLookup a Y = some dY ∧ dY.length ≤ 1) ∧
        alLookup a Xi = some d ∧ 1 < d.length := by
  intro vars
  induction vars with
  | nil => intro a Xi h; simp [select_unassigned_variable] at h
  | cons x rest ih =>
    intro a Xi h
    simp only [select_unassigned_variable] at h
    cases hd : alLookup a x with
    | none => rw [hd] at h; simp at h
    | some d =>
      rw [hd] at h
      simp only at h
      by_cases hl : 1 < d.length
      · rw [if_pos hl] at h
        injection h with h
        injection h with h
        subst h
        exact ⟨[], rest, d, rfl, by simp, hd, hl⟩
      · rw [if_neg hl] at h
        obtain ⟨pre, post, d2, heq, hpre, hXi, hgt⟩ := ih a Xi h
        refine ⟨x :: pre, post, d2, by rw [heq]; rfl, ?_, hXi, hgt⟩
        intro Y hY
        rcases List.mem_cons.mp hY with rfl | hY2
        · exact ⟨d, hd, by omega⟩
        · exact hpre Y hY2

/-! ## Algebra of the value loop -/

theorem seqTry_assoc (x y z : Option (Option Assign)) :
    seqTry (seqTry x y) z = seqTry x (seqTry y z) := by
  match x with
  | none => rfl
  | some none => rfl
  | some (some s) => rfl

theorem tvLoop_append (csp : CSP) (fuel : Nat) (a : Assign) (Xi : Var)
    (acc : Option (Option Assign)) (vs1 vs2 : List Val) :
    tvLoop csp fuel a Xi acc (vs1 ++ vs2) =
      tvLoop csp fuel a Xi (tvLoop csp fuel a Xi acc vs1) vs2 := by
  unfold tvLoop
  rw [List.foldl_append]

theorem tvLoop_acc_eq (csp : CSP) (fuel : Nat) (a : Assign) (Xi : Var) :
    ∀ (vs : List Val) (acc : Option (Option Assign)),
      tvLoop csp fuel a Xi acc vs =
        seqTry acc (tvLoop csp fuel a Xi (some none) vs) := by
  intro vs
  induction vs with
  | nil =>
    intro acc
    rw [tvLoop_nil, tvLoop_nil]
    match acc with
    | none => rfl
    | some none => rfl
    | some (some s) => rfl
  | cons v vs ih =>
    intro acc
    rw [tvLoop_cons, tvLoop_cons, ih, seqTry_fail, ih (branchOutcome csp fuel a Xi v),
      ← seqTry_assoc]

/-! ## Concrete stores used to settle the claims -/

/-- A store whose only constraint is stored one way (`A → B` with permitted
pair set `{(5, 6)}`), as `add_variable`/`add_constraint_one_way` build it when
the caller ignores the documented requirement to add the mirror constraint. -/
def oneWayStore : CSP :=
  ⟨[("A"), ("B")], [(("A"), [5]), (("B"), [7, 6])],
   [(("A"), [(("B"), [(5, 6)])]), (("B"), [])]⟩

/-- Two singleton variables with an (empty) pairwise constraint stored both
ways: the global pre-pass wipes out `A`'s domain and fails. -/
def ignoredFailStore : CSP :=
  ⟨[("A"), ("B")], [(("A"), [1]), (("B"), [2])],
   [(("A"), [(("B"), ([] : PairList))]), (("B"), [(("A"), ([] : PairList))])]⟩

/-- `i`'s domain is `[1, 2]`, `j`'s is `[3]`, and no pair at all is permitted
for `i → j` (the stored list holds only the junk pair `(9, 9)`). -/
def skipStore : CSP :=
  ⟨[("i"), ("j")], [(("i"), [1, 2]), (("j"), [3])],
   [(("i"), [(("j"), [(9, 9)])]), (("j"), [(("i"), [(9, 9)])])]⟩

/-- `i`'s domain is `[1, 2, 3]`, `j`'s is `[4]`; only `(3, 4)` is permitted,
so `1` is unsupported, `2` is skipped, `3` is kept. -/
def maskStore : CSP :=
  ⟨[("i"), ("j")], [(("i"), [1, 2, 3]), (("j"), [4])],
   [(("i"), [(("j"), [(3, 4)])]), (("j"), [(("i"), [(4, 3)])])]⟩

/-- A single variable declared with an empty domain. -/
def emptyVarStore : CSP := add_variable emptyCSP ("A") []

/-- A store whose assignment has an empty working domain for `A`, with the
`A → B` constraint present. -/
def emptyDomStore : CSP :=
  ⟨[("A"), ("B")], [(("A"), ([] : Domain)), (("B"), [1])],
   [(("A"), [(("B"), [(0, 0)])]), (("B"), [(("A"), [(0, 0)])])]⟩

/-- `A`'s domain `[1, 2, 3]` against `B`'s `[4]` with only `(3, 4)` permitted
(stored both ways): the first AC-3 run over all arcs returns success while
leaving the unsupported value `2` behind. -/
def staleStore : CSP :=
  ⟨[("A"), ("B")], [(("A"), [1, 2, 3]), (("B"), [4])],
   [(("A"), [(("B"), [(3, 4)])]), (("B"), [(("A"), [(4, 3)])])]⟩

/-- A genuinely arc-consistent store: singleton domains, the pair `(1, 1)`
permitted both ways. -/
def acStore : CSP :=
  ⟨[("A"), ("B")], [(("A"), [1]), (("B"), [1])],
   [(("A"), [(("B"), [(1, 1)])]), (("B"), [(("A"), [(1, 1)])])]⟩

/-- Two variables with domains `[1, 2]` and no constraints yet, built through
`add_variable`. -/
def pairStore : CSP :=
  add_variable (add_variable emptyCSP ("x") [1, 2]) ("y") [1, 2]

/-- The result of `add_all_different_constraint pairStore [x, y]`. -/
def pairStoreAD : CSP :=
  ⟨[("x"), ("y")], [(("x"), [1, 2]), (("y"), [1, 2])],
   [(("x"), [(("y"), [(1, 2), (2, 1)])]), (("y"), [(("x"), [(1, 2), (2, 1)])])]⟩

/-- The solution `backtracking_search` finds on `pairStoreAD`. -/
def pairSol : Assign := [(("x"), [1]), (("y"), [2])]

/-! ## The claims -/

/-- C1 (counterexample): on a store with a one-way constraint,
`backtracking_search` returns the non-failure assignment `A = 5, B = 7`
although the stored `A → B` constraint permits only the pair `(5, 6)`: the
claimed soundness fails as stated over every CSP store. -/
theorem one_way_store_unsound_cx :
    backtracking_search oneWayStore 6 = some (some [(("A"), [5]), (("B"), [7])]) ∧
    clookup oneWayStore ("A") ("B") = some [(5, 6)] ∧
    (((5 : Val), (7 : Val)) ∈ [((5 : Val), (6 : Val))] → False) := by decide

/-- C1 (amended): on stores obeying the documented two-way constraint
discipline, every non-failure result of `backtracking_search` in which no
working domain is empty satisfies every stored constraint on its decided
(singleton) values. -/
theorem search_sound_on_two_way_stores :
    ∀ (csp : CSP) (fuel : Nat) (sol : Assign), SymC csp →
      backtracking_search csp fuel = some (some sol) →
      (∀ p ∈ sol, p.2 ≠ ([] : Domain)) →
      ∀ (i j : Var) (Cij : PairList) (v w : Val), clookup csp i j = some Cij →
        alLookup sol i = some [v] → alLookup sol j = some [w] →
        (v, w) ∈ Cij := by
  intro csp fuel sol hsym hrun hne i j Cij v w hC hi hj
  unfold backtracking_search at hrun
  cases hpre : inference csp fuel csp.domains (get_all_arcs csp) with
  | none => rw [hpre] at hrun; simp at hrun
  | some p =>
    obtain ⟨a1, ok⟩ := p
    rw [hpre] at hrun
    simp only at hrun
    by_cases hok : ok = true
    · subst hok
      have hq1 : Qinv csp a1 [] :=
        inference_Q hsym (Qinv_init csp csp.domains) hpre
      have hq2 : Qinv csp sol [] := backtrack_Q hsym hq1 hrun
      rcases hq2 i j Cij v w hC hi hj with h1 | h1 | h1
      · exact h1
      · simp at h1
      · simp at h1
    · have hok2 : ok = false := by
        cases ok
        · rfl
        · exact absurd rfl hok
      subst hok2
      obtain ⟨x, hx⟩ := inference_false_empty hpre
      obtain ⟨d2, hd2, hsub⟩ := backtrack_shrink hrun x [] hx
      have hd0 : d2 = [] := List.sublist_nil.mp hsub
      subst hd0
      exact absurd rfl (hne (x, []) (alLookup_mem hd2))

/-- C1 (witness): the two-way store built by `add_all_different_constraint`
on two variables; the found solution `x = 1, y = 2` respects the stored
constraint. -/
theorem search_sound_on_two_way_stores_witness :
    ((1 : Val), (2 : Val)) ∈ [((1 : Val), (2 : Val)), ((2 : Val), (1 : Val))] :=
  search_sound_on_two_way_stores pairStoreAD 6 pairSol
    (symCheck_sound (by decide)) (by decide) (by decide) ("x") ("y")
    [(1, 2), (2, 1)] 1 2 (by decide) (by decide) (by decide)

/-- C2 (counterexample): on a store whose global pre-pass fails (it empties
`A`'s domain and returns the failure flag), `backtracking_search` does not
report unsatisfiability: it returns a non-failure mapping containing the
emptied domain, and the recursive search did run. -/
theorem failed_prepass_still_searches_cx :
    inference ignoredFailStore 5 ignoredFailStore.domains
        (get_all_arcs ignoredFailStore) =
      some ([(("A"), []), (("B"), [2])], false) ∧
    backtracking_search ignoredFailStore 5 =
      some (some [(("A"), []), (("B"), [2])]) ∧
    backtracking_search ignoredFailStore 5 ≠ some none := by decide

/-- C2 (amended): line 87 of the source discards the Boolean result of the
pre-pass inference, so even when that inference fails, `backtracking_search`
still starts `backtrack` on the pruned assignment and returns whatever it
produces. -/
theorem failed_prepass_result_discarded :
    ∀ (csp : CSP) (fuel : Nat) (a1 : Assign),
      inference csp fuel csp.domains (get_all_arcs csp) = some (a1, false) →
      backtracking_search csp fuel = backtrack csp fuel a1 := by
  intro csp fuel a1 h
  unfold backtracking_search
  rw [h]

/-- C2 (witness): the discarded failing pre-pass on `ignoredFailStore`. -/
theorem failed_prepass_result_discarded_witness :
    backtracking_search ignoredFailStore 5 =
      backtrack ignoredFailStore 5 [(("A"), []), (("B"), [2])] :=
  failed_prepass_result_discarded ignoredFailStore 5
    [(("A"), []), (("B"), [2])] (by decide)

/-- C3 (code bug, evaluation): `revise` on `i`'s domain `[1, 2]` removes the
unsupported value `1` in place, which makes the loop skip `2`; it returns
with the equally unsupported value `2` still in the domain, contradicting the
documented postcondition that every remaining value has support. -/
theorem revise_keeps_unsupported_value :
    revise skipStore skipStore.domains ("i") ("j") =
      some ([(("i"), [2]), (("j"), [3])], true) ∧
    (∀ w ∈ ([3] : Domain), (((2 : Val), w) ∈ [((9 : Val), (9 : Val))] → False)) := by
  decide

/-- C4 (code bug, evaluation): `revise` on `i`'s domain `[1, 2, 3]` removes
the unsupported value `1` (skipping `2`) and then examines `3`, which has
support; the returned flag reflects only that last value, so the call reports
`False` although a removal occurred. -/
theorem revise_false_despite_removal :
    revise maskStore maskStore.domains ("i") ("j") =
      some ([(("i"), [2, 3]), (("j"), [4])], false) ∧
    ([2, 3] : Domain) ≠ [1, 2, 3] := by decide

/-- C5 (counterexample): a store with one variable declared with an empty
domain: `backtracking_search` returns it as a non-failure result whose
working domain has length 0, not 1. -/
theorem search_returns_empty_domain_cx :
    backtracking_search emptyVarStore 2 = some (some [(("A"), ([] : Domain))]) ∧
    ¬ (([] : Domain).length = 1) := by decide

/-- C5 (amended): every non-failure result of `backtracking_search` binds
each declared variable to a domain of length at most one (empty domains are
possible, since `select_unassigned_variable` treats them as decided and the
failing pre-pass is ignored). -/
theorem search_domains_at_most_one :
    ∀ (csp : CSP) (fuel : Nat) (sol : Assign),
      backtracking_search csp fuel = some (some sol) →
      ∀ X ∈ csp.vars, ∃ d, alLookup sol X = some d ∧ d.length ≤ 1 := by
  intro csp fuel sol h X hX
  unfold backtracking_search at h
  cases hpre : inference csp fuel csp.domains (get_all_arcs csp) with
  | none => rw [hpre] at h; simp at h
  | some p =>
    obtain ⟨a1, ok⟩ := p
    rw [hpre] at h
    simp only at h
    exact backtrack_le1 h X hX

/-- C5 (witness): the solved two-variable store. -/
theorem search_domains_at_most_one_witness :
    ∃ d, alLookup pairSol ("x") = some d ∧ d.length ≤ 1 :=
  search_domains_at_most_one pairStoreAD 6 pairSol (by decide) ("x") (by decide)

/-- C6 (counterexample): on an assignment whose only variable has an empty
working domain, `select_unassigned_variable` returns Python `None` although
that domain's length is 0, not exactly 1: `None` does not characterise the
SOLVED state. -/
theorem select_none_with_empty_domain_cx :
    select_unassigned_variable [("A")] [(("A"), ([] : Domain))] = some none ∧
    alLookup [(("A"), ([] : Domain))] ("A") = some [] ∧
    (([] : Domain).length = 1 → False) := by decide

/-- C6 (amended): `select_unassigned_variable` returns Python `None` exactly
when every scanned variable is bound to a domain of length at most one
(decided or wiped out); when it returns a variable, that variable is the
first in declaration order whose domain has more than one value. -/
theorem select_policy_characterisation :
    ∀ (vars : List Var) (a : Assign),
      (select_unassigned_variable vars a = some none ↔
        ∀ X ∈ vars, ∃ d, alLookup a X = some d ∧ d.length ≤ 1) ∧
      ∀ Xi, select_unassigned_variable vars a = some (some Xi) →
        ∃ pre post d, vars = pre ++ Xi :: post ∧
          (∀ Y ∈ pre, ∃ dY, alLookup a Y = some dY ∧ dY.length ≤ 1) ∧
          alLookup a Xi = some d ∧ 1 < d.length :=
  fun vars a =>
    ⟨⟨select_none_all vars a, select_all_le_none vars a⟩,
     fun Xi h => select_some_first vars a Xi h⟩

/-- C6 (witness): on `A ↦ [7], B ↦ [1, 2]` the scan skips the decided `A`
and returns `B`. -/
theorem select_policy_characterisation_witness :
    ∃ pre post d, [("A"), ("B")] = pre ++ ("B") :: post ∧
      (∀ Y ∈ pre, ∃ dY,
        alLookup [(("A"), [7]), (("B"), [1, 2])] Y = some dY ∧ dY.length ≤ 1) ∧
      alLookup [(("A"), [7]), (("B"), [1, 2])] ("B") = some d ∧ 1 < d.length :=
  (select_policy_characterisation [("A"), ("B")]
    [(("A"), [7]), (("B"), [1, 2])]).2 ("B") (by decide)

/-- C7: `add_all_different_constraint` preserves the two-way symmetry
invariant: starting from any store whose stored constraints are symmetric
(in particular one where the pairs were added in both directions, in any
order), after the call a pair `(a, b)` is permitted `i → j` iff `(b, a)` is
permitted `j → i`, for all variables. -/
theorem add_all_different_symmetric :
    ∀ (csp csp2 : CSP) (vs : List Var), SymC csp →
      add_all_different_constraint csp vs = some csp2 → SymC csp2 :=
  fun _ _ _ hsym h => alldiff_sym hsym h

/-- C7 (witness): applying the Alldiff combinator to the fresh two-variable
store yields the symmetric `pairStoreAD`. -/
theorem add_all_different_symmetric_witness : SymC pairStoreAD :=
  add_all_different_symmetric pairStore pairStoreAD [("x"), ("y")]
    (symCheck_sound (by decide)) (by decide)

/-- C8: branch isolation of `backtrack`'s value loop: the outcome of trying
a concatenation of candidate lists is the short-circuit combination of the
outcomes of trying each list, both computed from the same parent assignment
`a`; no branch's pruning is visible to the parent (which is immutable here,
matching the per-iteration deep copy) or to its sibling branches. -/
theorem sibling_branches_isolated :
    ∀ (csp : CSP) (fuel : Nat) (a : Assign) (Xi : Var) (vs1 vs2 : List Val),
      tvLoop csp fuel a Xi (some none) (vs1 ++ vs2) =
        seqTry (tvLoop csp fuel a Xi (some none) vs1)
          (tvLoop csp fuel a Xi (some none) vs2) := by
  intro csp fuel a Xi vs1 vs2
  rw [tvLoop_append]
  exact tvLoop_acc_eq csp fuel a Xi vs2 (tvLoop csp fuel a Xi (some none) vs1)

/-- C9 (counterexample): a first `inference` run over all arcs succeeds but
leaves the unsupported value `2` behind (a removal-skip with no
re-queueing); running `inference` again over all arcs succeeds and removes a
further value, so success of a run does not make a second run a no-op. -/
theorem inference_second_run_prunes_cx :
    inference staleStore 9 staleStore.domains (get_all_arcs staleStore) =
      some ([(("A"), [2, 3]), (("B"), [4])], true) ∧
    inference staleStore 9 [(("A"), [2, 3]), (("B"), [4])]
        (get_all_arcs staleStore) =
      some ([(("A"), [3]), (("B"), [4])], true) ∧
    ([(("A"), [2, 3]), (("B"), [4])] : Assign) ≠
      [(("A"), [3]), (("B"), [4])] := by decide

/-- C9 (amended): on a state that is genuinely arc-consistent (every stored
arc has both endpoints bound, a nonempty source domain, and every source
value supported), `inference` over all arcs succeeds and changes nothing,
given fuel for its queue. -/
theorem inference_noop_on_arc_consistent :
    ∀ (csp : CSP) (a : Assign) (fuel : Nat), acCheck csp a = true →
      (get_all_arcs csp).length < fuel →
      inference csp fuel a (get_all_arcs csp) = some (a, true) :=
  fun csp a fuel hac hf =>
    @inference_ac_noop csp a (get_all_arcs csp) fuel (acCheck_sound hac) hf

/-- C9 (witness): the arc-consistent singleton store is a fixed point. -/
theorem inference_noop_on_arc_consistent_witness :
    inference acStore 3 acStore.domains (get_all_arcs acStore) =
      some (acStore.domains, true) :=
  inference_noop_on_arc_consistent acStore acStore.domains 3 (by decide)
    (by decide)

/-- C10 (counterexample): `revise` on a state in which `i`'s working domain
is empty does not return a Boolean: its loop never runs, the local `revised`
is never assigned, and the call raises (modelled as `none`). -/
theorem revise_raises_on_empty_domain_cx :
    revise emptyDomStore emptyDomStore.domains ("A") ("B") = none := by decide

/-- C10 (amended): whenever `i` and `j` are bound in the assignment, `i`'s
working domain is nonempty and the `i → j` constraint is stored, `revise`
returns normally with a Boolean. -/
theorem revise_returns_on_nonempty_domain :
    ∀ (csp : CSP) (a : Assign) (i j : Var) (di dj : Domain) (Cij : PairList),
      alLookup a i = some di → di ≠ [] → alLookup a j = some dj →
      clookup csp i j = some Cij → ∃ a2 r, revise csp a i j = some (a2, r) := by
  intro csp a i j di dj Cij hdi hne hdj hC
  have hcf : ∃ Cu, constraintFor csp i j dj = some Cu := by
    unfold constraintFor
    by_cases hje : dj = []
    · exact ⟨[], by rw [if_pos hje]⟩
    · exact ⟨Cij, by rw [if_neg hje]; exact hC⟩
  obtain ⟨Cu, hcf⟩ := hcf
  cases hrl : reviseLoop Cu dj di.length di 0 none with
  | mk di2 fl =>
    cases fl with
    | none =>
      exfalso
      have hn := reviseLoop_flag_none Cu dj di.length di 0 none (by omega)
        (by rw [hrl])
      exact hne (List.length_eq_zero.mp (by omega))
    | some r =>
      refine ⟨alSet a i di2, r, ?_⟩
      unfold revise
      simp [hdi, hne, hdj, hcf, hrl]

/-- C10 (witness): `revise` returns on the two-value domain of `skipStore`. -/
theorem revise_returns_on_nonempty_domain_witness :
    ∃ a2 r, revise skipStore skipStore.domains ("i") ("j") = some (a2, r) :=
  revise_returns_on_nonempty_domain skipStore skipStore.domains ("i") ("j")
    [1, 2] [3] [(9, 9)] (by decide) (by decide) (by decide) (by decide)
